import Mathlib

/-!
Shallow embedding of `merge_json_datasets.py`, a utility that merges
per-dataset JSONL files into unified train/test splits.

Modelling conventions:

* A filesystem path is a `String`.  A text line is a `List Char` (the line
  as delivered by Python's file iteration, with the terminator removed;
  `str.strip` removes the terminator anyway, so nothing is lost).
* A regular file's content is its list of lines; the filesystem maps each
  path to `Option (List Line)` (`none` means the path cannot be opened as a
  text file).  Directories are tracked as a list of paths.
* `Path.glob`, `Path.is_file` and `Path.resolve` are OS services; they enter
  the model as explicit parameters (the glob result in its arbitrary
  filesystem enumeration order, and two oracles).
* Python's `sorted` is a stable sort; on a linear order every sorting
  algorithm agrees, so it is embedded as `List.insertionSort` over the
  code-point lexicographic order on path strings (`pathLe`), which is the
  order Python uses to compare the matched paths of a single-directory glob.
* Python's `str.strip()` is embedded as `pyStrip`, dropping the ASCII
  whitespace characters space, tab, newline, carriage return, vertical tab
  and form feed from both ends (the Unicode space classes that `str.strip`
  also removes do not occur in JSONL data and are omitted).
-/

namespace Merge

/-- Filesystem paths are modelled as strings. -/
abbrev Path := String

/-- A text line, as a list of characters without its terminator. -/
abbrev Line := List Char

/-- Whitespace characters stripped by Python's `str.strip()` (ASCII range). -/
def isPyWs (c : Char) : Bool :=
  c = ' ' || c = '\t' || c = '\n' || c = '\r' || c = '\x0b' || c = '\x0c'

/-- Model of Python's `line.strip()`: drop whitespace from both ends. -/
def pyStrip (l : Line) : Line :=
  ((l.dropWhile isPyWs).reverse.dropWhile isPyWs).reverse

/-- Code-point lexicographic comparison of character lists, matching how
Python compares the strings underlying two paths. -/
def lexLe : List Char → List Char → Bool
  | [], _ => true
  | _ :: _, [] => false
  | a :: as, b :: bs => if a = b then lexLe as bs else decide (a < b)

/-- The order by which `sorted` arranges the matched paths. -/
def pathLe (a b : Path) : Prop := lexLe a.data b.data = true

instance : DecidableRel pathLe := fun a b => by
  unfold pathLe; infer_instance

/-- State of the filesystem as the script sees it: readable regular files
with their lines, and the set of existing directories. -/
structure FS where
  fileLines : Path → Option (List Line)
  dirs : List Path

/-- Overwrite (or create) the regular file at `p` with the given lines. -/
def setFile (fs : FS) (p : Path) (content : List Line) : FS :=
  { fs with fileLines := fun q => if q = p then some content else fs.fileLines q }

/-- Split a path string at every slash, at the character level. -/
def splitSlash : List Char → List (List Char)
  | [] => [[]]
  | c :: cs =>
    match splitSlash cs with
    | [] => [[]]
    | g :: gs => if c = '/' then [] :: g :: gs else (c :: g) :: gs

/-- Rejoin path components with slashes. -/
def joinSlash : List (List Char) → List Char
  | [] => []
  | [g] => g
  | g :: gs => g ++ '/' :: joinSlash gs

/-- The chain of directories that `output_path.parent.mkdir(parents=True,
exist_ok=True)` brings into existence: every proper prefix of the path's
component list, shortest first. -/
def ancestorDirs (p : Path) : List Path :=
  let parts := (splitSlash p.data).dropLast
  (List.range parts.length).map (fun i => String.mk (joinSlash (parts.take (i + 1))))

/-- Effect of `output_path.parent.mkdir(parents=True, exist_ok=True)`:
every missing ancestor directory is created, existing ones are kept. -/
def mkdirParents (fs : FS) (p : Path) : FS :=
  { fs with dirs := fs.dirs ++ (ancestorDirs p).filter (fun d => decide (d ∉ fs.dirs)) }

/-- Embedding of `collect_files(directory, pattern, output_names)`.  The
glob result arrives as `glob_result` (in arbitrary enumeration order);
`is_file` and `resolve` stand for the corresponding `pathlib` queries.
The code sorts the matches, then keeps those that are regular files and
whose resolved form is not the resolved form of an excluded output. -/
def collect_files (glob_result : List Path) (is_file : Path → Bool)
    (resolve : Path → Path) (output_names : List Path) : List Path :=
  let excluded := output_names.map resolve
  (List.insertionSort pathLe glob_result).filter
    (fun p => is_file p && decide (resolve p ∉ excluded))

/-- Inner loop of `merge_jsonl` over the lines of one input file: each line
is stripped; blank results are skipped, others are written as the stripped
text plus a single newline, and counted. -/
def writeLines : List Line → List Line → Nat → List Line × Nat
  | [], out, n => (out, n)
  | line :: rest, out, n =>
    let stripped := pyStrip line
    if stripped = [] then writeLines rest out n
    else writeLines rest (out ++ [stripped ++ ['\n']]) (n + 1)

/-- Outer loop of `merge_jsonl` over the input files.  Opening a file that
cannot be read raises; the chunks written so far and the offending path are
returned so the partial output can be recorded. -/
def mergeLoop (fs : FS) : List Path → List Line → Nat → List Line × Nat × Option Path
  | [], out, n => (out, n, none)
  | f :: rest, out, n =>
    match fs.fileLines f with
    | none => (out, n, some f)
    | some lines =>
      let r := writeLines lines out n
      mergeLoop fs rest r.1 r.2

/-- Embedding of `merge_jsonl(files, output_path)`: create the output's
missing parent directories, open the output for writing (truncating it),
process the files in order, and leave the written content in the file.  On
success the number of lines written is returned; if an input cannot be
opened the error carries the offending path and the partial output stays
on disk. -/
def merge_jsonl (fs : FS) (files : List Path) (output_path : Path) :
    FS × Except Path Nat :=
  let fs1 := mkdirParents fs output_path
  let fs2 := setFile fs1 output_path []
  let r := mergeLoop fs2 files [] 0
  let fs3 := setFile fs2 output_path r.1
  match r.2.2 with
  | none => (fs3, Except.ok r.2.1)
  | some p => (fs3, Except.error p)

/-- Command-line configuration of the driver (`parse_args` result). -/
structure Config where
  input_dir : Path
  train_pattern : String
  test_pattern : String
  output_train : Path
  output_test : Path

/-- OS environment of one run: the filesystem plus the `pathlib` services
the script calls (`exists`, `is_dir`, `glob`, `is_file`, `resolve`). -/
structure World where
  fs : FS
  pathExists : Path → Bool
  isDir : Path → Bool
  glob : Path → String → List Path
  is_file : Path → Bool
  resolve : Path → Path

/-- The diagnostics with which `main` terminates a run (each `SystemExit`
message names exactly these data). -/
inductive MergeError where
  | inputDirNotFound (dir : Path)
  | noTrainFiles (pat : String) (dir : Path)
  | noTestFiles (pat : String) (dir : Path)
  | ioError (path : Path)
deriving DecidableEq

/-- The train selection `main` computes: `collect_files(input_dir,
train_pattern, output_paths)` with both output paths excluded. -/
def trainSelection (w : World) (a : Config) : List Path :=
  collect_files (w.glob a.input_dir a.train_pattern) w.is_file w.resolve
    [a.output_train, a.output_test]

/-- The test selection `main` computes, excluding the same output paths. -/
def testSelection (w : World) (a : Config) : List Path :=
  collect_files (w.glob a.input_dir a.test_pattern) w.is_file w.resolve
    [a.output_train, a.output_test]

/-- Embedding of `main()`: validate the input directory, build both
selections, fail if either is empty, then merge train and test in that
order.  The returned filesystem reflects every write performed before
success or failure; the second component carries the two line counts or
the terminating diagnostic. -/
def main_model (w : World) (a : Config) : FS × Except MergeError (Nat × Nat) :=
  if !(w.pathExists a.input_dir) || !(w.isDir a.input_dir) then
    (w.fs, Except.error (MergeError.inputDirNotFound a.input_dir))
  else
    let train_files := trainSelection w a
    let test_files := testSelection w a
    if train_files = [] then
      (w.fs, Except.error (MergeError.noTrainFiles a.train_pattern a.input_dir))
    else if test_files = [] then
      (w.fs, Except.error (MergeError.noTestFiles a.test_pattern a.input_dir))
    else
      let r1 := merge_jsonl w.fs train_files a.output_train
      match r1.2 with
      | Except.error p => (r1.1, Except.error (MergeError.ioError p))
      | Except.ok train_count =>
        let r2 := merge_jsonl r1.1 test_files a.output_test
        match r2.2 with
        | Except.error p => (r2.1, Except.error (MergeError.ioError p))
        | Except.ok test_count => (r2.1, Except.ok (train_count, test_count))

/-- The lines a readable file holds (used only under a hypothesis that the
file is readable, where the default is irrelevant). -/
def readLs (fs : FS) (f : Path) : List Line := (fs.fileLines f).getD []

/-- The non-blank lines of a file, each in stripped form, in order. -/
def filteredOf (ls : List Line) : List Line :=
  (ls.map pyStrip).filter (fun s => decide (s ≠ []))

/-- The content `merge_jsonl` produces for a list of input files read from
`fs`: the concatenation, in file order and line order, of every non-blank
stripped line, each followed by exactly one newline. -/
def mergedContent (fs : FS) (files : List Path) : List Line :=
  ((files.map (fun f => filteredOf (readLs fs f))).flatten).map (fun s => s ++ ['\n'])

/-! ### Helper lemmas -/

/-- The first element surviving `dropWhile p` falsifies `p`. -/
lemma dropWhile_head_false {α : Type} {p : α → Bool} :
    ∀ {l : List α} {a : α} {t : List α}, List.dropWhile p l = a :: t → p a = false := by
  intro l
  induction l with
  | nil => intro a t h; simp [List.dropWhile] at h
  | cons c cs ih =>
    intro a t h
    rw [List.dropWhile_cons] at h
    by_cases hc : p c = true
    · rw [if_pos hc] at h; exact ih h
    · rw [if_neg hc] at h
      cases h
      simpa using hc

/-- A non-empty stripped line contains a non-whitespace character. -/
lemma pyStrip_has_nonWs {l : Line} (h : pyStrip l ≠ []) :
    ∃ c, c ∈ pyStrip l ∧ isPyWs c = false := by
  unfold pyStrip at *
  cases hr : (l.dropWhile isPyWs).reverse.dropWhile isPyWs with
  | nil => rw [hr] at h; simp at h
  | cons a t =>
    refine ⟨a, ?_, dropWhile_head_false hr⟩
    simp

lemma filteredOf_nil : filteredOf [] = [] := rfl

lemma filteredOf_cons (l : Line) (rest : List Line) :
    filteredOf (l :: rest) =
      if pyStrip l = [] then filteredOf rest else pyStrip l :: filteredOf rest := by
  by_cases h : pyStrip l = [] <;> simp [filteredOf, List.filter_cons, h]

/-- Characterization of the inner write loop: it appends one chunk per
non-blank line and adds the number of chunks to the counter. -/
lemma writeLines_eq (lines : List Line) : ∀ out n, writeLines lines out n =
    (out ++ (filteredOf lines).map (fun s => s ++ ['\n']),
     n + (filteredOf lines).length) := by
  induction lines with
  | nil => intro out n; simp [writeLines, filteredOf_nil]
  | cons l rest ih =>
    intro out n
    rw [filteredOf_cons]
    by_cases h : pyStrip l = []
    · simp only [writeLines, h, if_pos rfl, if_true]
      simpa [h] using ih out n
    · simp only [writeLines, if_neg h]
      rw [ih]
      simp [h, List.append_assoc]
      omega

lemma mergedContent_nil (fs : FS) : mergedContent fs [] = [] := rfl

lemma mergedContent_cons (fs : FS) (f : Path) (rest : List Path) :
    mergedContent fs (f :: rest) =
      (filteredOf (readLs fs f)).map (fun s => s ++ ['\n']) ++ mergedContent fs rest := by
  simp [mergedContent]

/-- Characterization of the outer loop when every input file is readable. -/
lemma mergeLoop_eq (fs : FS) (files : List Path)
    (hread : ∀ f ∈ files, fs.fileLines f ≠ none) : ∀ out n,
    mergeLoop fs files out n =
      (out ++ mergedContent fs files, n + (mergedContent fs files).length, none) := by
  induction files with
  | nil => intro out n; simp [mergeLoop, mergedContent_nil]
  | cons f rest ih =>
    intro out n
    obtain ⟨ls, hls⟩ : ∃ ls, fs.fileLines f = some ls := by
      cases h : fs.fileLines f with
      | none => exact absurd h (hread f (by simp))
      | some ls => exact ⟨ls, rfl⟩
    have hrest : ∀ g ∈ rest, fs.fileLines g ≠ none := fun g hg =>
      hread g (List.mem_cons_of_mem _ hg)
    simp only [mergeLoop, hls, writeLines_eq, ih hrest, mergedContent_cons]
    have hread_f : readLs fs f = ls := by simp [readLs, hls]
    rw [hread_f]
    simp [List.append_assoc]
    omega

/-- Filesystems that agree on the input files produce the same merged
content. -/
lemma mergedContent_congr (g fs : FS) (files : List Path)
    (h : ∀ f ∈ files, g.fileLines f = fs.fileLines f) :
    mergedContent g files = mergedContent fs files := by
  unfold mergedContent
  have hmap : files.map (fun f => filteredOf (readLs g f)) =
      files.map (fun f => filteredOf (readLs fs f)) :=
    List.map_congr_left fun f hf => by rw [readLs, readLs, h f hf]
  rw [hmap]

lemma setFile_read_ne (fs : FS) (p q : Path) (c : List Line) (h : q ≠ p) :
    (setFile fs p c).fileLines q = fs.fileLines q := by
  simp [setFile, h]

lemma mkdirParents_fileLines (fs : FS) (p : Path) :
    (mkdirParents fs p).fileLines = fs.fileLines := rfl

/-- Master equation for `merge_jsonl` on readable inputs that do not
include the output path: the output file ends up holding exactly the
merged content and the returned count is its length. -/
lemma merge_jsonl_eq (fs : FS) (files : List Path) (out : Path)
    (hread : ∀ f ∈ files, fs.fileLines f ≠ none) (hout : out ∉ files) :
    merge_jsonl fs files out =
      (setFile (setFile (mkdirParents fs out) out []) out (mergedContent fs files),
       Except.ok (mergedContent fs files).length) := by
  have hagree : ∀ f ∈ files,
      (setFile (mkdirParents fs out) out []).fileLines f = fs.fileLines f := by
    intro f hf
    have hne : f ≠ out := by intro hfe; subst hfe; exact hout hf
    rw [setFile_read_ne _ _ _ _ hne, mkdirParents_fileLines]
  have hread2 : ∀ f ∈ files,
      (setFile (mkdirParents fs out) out []).fileLines f ≠ none := by
    intro f hf; rw [hagree f hf]; exact hread f hf
  have hmc := mergedContent_congr (setFile (mkdirParents fs out) out []) fs files hagree
  unfold merge_jsonl
  simp only [mergeLoop_eq _ _ hread2, hmc]
  rw [List.nil_append, Nat.zero_add]

/-- Every ancestor directory of `p` exists after `mkdirParents`. -/
lemma mem_mkdirParents (fs : FS) (p : Path) :
    ∀ d ∈ ancestorDirs p, d ∈ (mkdirParents fs p).dirs := by
  intro d hd
  unfold mkdirParents
  by_cases h : d ∈ fs.dirs
  · exact List.mem_append_left _ h
  · exact List.mem_append_right _ (List.mem_filter.mpr ⟨hd, by simpa using h⟩)

/-! ### The path order is a linear order -/

lemma lexLe_total : ∀ a b : List Char, lexLe a b = true ∨ lexLe b a = true := by
  intro a
  induction a with
  | nil => intro b; left; rfl
  | cons x xs ih =>
    intro b
    cases b with
    | nil => right; rfl
    | cons y ys =>
      by_cases hxy : x = y
      · subst hxy
        rcases ih ys with h | h
        · left; simpa [lexLe] using h
        · right; simpa [lexLe] using h
      · rcases lt_trichotomy x y with h | h | h
        · left; simp [lexLe, hxy, h]
        · exact absurd h hxy
        · right; simp [lexLe, Ne.symm hxy, h]

lemma lexLe_trans : ∀ a b c : List Char,
    lexLe a b = true → lexLe b c = true → lexLe a c = true := by
  intro a
  induction a with
  | nil => intro b c _ _; rfl
  | cons x xs ih =>
    intro b c hab hbc
    cases b with
    | nil => simp [lexLe] at hab
    | cons y ys =>
      cases c with
      | nil => simp [lexLe] at hbc
      | cons z zs =>
        by_cases hxy : x = y <;> by_cases hyz : y = z
        · subst hxy; subst hyz
          simp only [lexLe, if_pos rfl] at *
          exact ih ys zs hab hbc
        · subst hxy
          simp only [lexLe, if_neg hyz] at hbc
          simp [lexLe, hyz, by simpa using hbc]
        · subst hyz
          simp only [lexLe, if_neg hxy] at hab
          simp [lexLe, hxy, by simpa using hab]
        · simp only [lexLe, if_neg hxy] at hab
          simp only [lexLe, if_neg hyz] at hbc
          have hlt : x < z := lt_trans (by simpa using hab) (by simpa using hbc)
          have hne : x ≠ z := ne_of_lt hlt
          simp [lexLe, hne, hlt]

lemma lexLe_antisymm : ∀ a b : List Char,
    lexLe a b = true → lexLe b a = true → a = b := by
  intro a
  induction a with
  | nil =>
    intro b _ hba
    cases b with
    | nil => rfl
    | cons y ys => simp [lexLe] at hba
  | cons x xs ih =>
    intro b hab hba
    cases b with
    | nil => simp [lexLe] at hab
    | cons y ys =>
      by_cases hxy : x = y
      · subst hxy
        simp only [lexLe, if_pos rfl] at hab hba
        rw [ih ys hab hba]
      · simp only [lexLe, if_neg hxy] at hab
        simp only [lexLe, if_neg (Ne.symm hxy)] at hba
        exact absurd (lt_trans (by simpa using hab) (by simpa using hba)) (lt_irrefl x)

instance : IsTotal Path pathLe :=
  ⟨fun a b => lexLe_total a.data b.data⟩

instance : IsTrans Path pathLe :=
  ⟨fun a b c hab hbc => lexLe_trans a.data b.data c.data hab hbc⟩

instance : IsAntisymm Path pathLe :=
  ⟨fun a b hab hba => by
    cases a; cases b
    exact congrArg String.mk (lexLe_antisymm _ _ hab hba)⟩

/-! ### Sample data used by the witnesses -/

/-- A small filesystem with two readable JSONL files, one blank line and
some padding whitespace among them. -/
def sampleFS : FS :=
  { fileLines := fun p =>
      if p = "f1" then some [['j', '1'], [' ', '\t'], ['j', '2']]
      else if p = "f2" then some [[' ', 'j', '3', ' ']]
      else none,
    dirs := [] }

/-- A configuration mirroring the script's defaults inside directory `d`. -/
def sampleConfig : Config :=
  { input_dir := "d"
    train_pattern := "*train*.json"
    test_pattern := "*test*.json"
    output_train := "d/unified_train.json"
    output_test := "d/unified_test.json" }

/-- A world whose input directory exists but where no pattern matches any
file. -/
def emptyGlobWorld : World :=
  { fs := sampleFS
    pathExists := fun p => p = "d"
    isDir := fun p => p = "d"
    glob := fun _ _ => []
    is_file := fun _ => true
    resolve := fun p => p }

/-- A world where the configured input directory does not exist. -/
def noDirWorld : World :=
  { fs := sampleFS
    pathExists := fun _ => false
    isDir := fun _ => false
    glob := fun _ _ => []
    is_file := fun _ => true
    resolve := fun p => p }

/-! ### Claim theorems -/

/-- C1: for every ordered sequence of readable input files (not containing
the output path), the output file written by `merge_jsonl` holds exactly
the concatenation, in file order and line order, of every line whose
stripped form is non-empty, each written as the stripped form followed by
one newline; consequently no written line is empty or whitespace-only. -/
theorem merge_jsonl_output_content (fs : FS) (files : List Path) (out : Path)
    (hread : ∀ f ∈ files, fs.fileLines f ≠ none) (hout : out ∉ files) :
    ((merge_jsonl fs files out).1).fileLines out = some (mergedContent fs files) ∧
    ∀ chunk ∈ mergedContent fs files,
      ∃ s, chunk = s ++ ['\n'] ∧ s ≠ [] ∧ ∃ c, c ∈ s ∧ isPyWs c = false := by
  constructor
  · rw [merge_jsonl_eq fs files out hread hout]
    simp [setFile]
  · intro chunk hchunk
    unfold mergedContent at hchunk
    obtain ⟨s, hs, hcs⟩ := List.mem_map.mp hchunk
    obtain ⟨l, hl, hsl⟩ := List.mem_flatten.mp hs
    obtain ⟨f, hf, hlf⟩ := List.mem_map.mp hl
    subst hlf
    obtain ⟨hsmem, hsne⟩ := List.mem_filter.mp hsl
    have hne : s ≠ [] := of_decide_eq_true hsne
    obtain ⟨x, hx, hxs⟩ := List.mem_map.mp hsmem
    subst hxs
    obtain ⟨c, hcmem, hcws⟩ := pyStrip_has_nonWs hne
    exact ⟨pyStrip x, hcs.symm, hne, c, hcmem, hcws⟩

theorem merge_jsonl_output_content_witness :
    (∀ f ∈ ["f1", "f2"], sampleFS.fileLines f ≠ none) ∧ ("out" : Path) ∉ ["f1", "f2"] ∧
    (((merge_jsonl sampleFS ["f1", "f2"] ("out")).1).fileLines ("out") =
        some (mergedContent sampleFS ["f1", "f2"]) ∧
      ∀ chunk ∈ mergedContent sampleFS ["f1", "f2"],
        ∃ s, chunk = s ++ ['\n'] ∧ s ≠ [] ∧ ∃ c, c ∈ s ∧ isPyWs c = false) :=
  ⟨by decide, by decide,
   merge_jsonl_output_content sampleFS ["f1", "f2"] ("out") (by decide) (by decide)⟩

/-- C2: the integer returned by `merge_jsonl` is the total number of lines
across the input files whose stripped form is non-empty, which is also the
number of lines written to the output. -/
theorem merge_jsonl_count (fs : FS) (files : List Path) (out : Path)
    (hread : ∀ f ∈ files, fs.fileLines f ≠ none) (hout : out ∉ files) :
    (merge_jsonl fs files out).2 =
      Except.ok ((files.map (fun f => (filteredOf (readLs fs f)).length)).sum) ∧
    (files.map (fun f => (filteredOf (readLs fs f)).length)).sum =
      (mergedContent fs files).length := by
  have hlen : (mergedContent fs files).length =
      (files.map (fun f => (filteredOf (readLs fs f)).length)).sum := by
    unfold mergedContent
    rw [List.length_map, List.length_flatten, List.map_map]
    rfl
  exact ⟨by rw [merge_jsonl_eq fs files out hread hout, hlen], hlen.symm⟩

theorem merge_jsonl_count_witness :
    (∀ f ∈ ["f1", "f2"], sampleFS.fileLines f ≠ none) ∧ ("o2" : Path) ∉ ["f1", "f2"] ∧
    ((merge_jsonl sampleFS ["f1", "f2"] ("o2")).2 =
        Except.ok ((["f1", "f2"].map
          (fun f => (filteredOf (readLs sampleFS f)).length)).sum) ∧
      (["f1", "f2"].map (fun f => (filteredOf (readLs sampleFS f)).length)).sum =
        (mergedContent sampleFS ["f1", "f2"]).length) :=
  ⟨by decide, by decide,
   merge_jsonl_count sampleFS ["f1", "f2"] ("o2") (by decide) (by decide)⟩

/-- C7: whatever content the output path held before the run, after
`merge_jsonl` completes it holds exactly the newly merged content, and the
returned result is the same as when starting from any other prior state:
no residual old lines survive. -/
theorem merge_jsonl_overwrites_prior (fs : FS) (files : List Path) (out : Path)
    (prior : List Line)
    (hread : ∀ f ∈ files, fs.fileLines f ≠ none) (hout : out ∉ files) :
    ((merge_jsonl (setFile fs out prior) files out).1).fileLines out =
      some (mergedContent fs files) ∧
    (merge_jsonl (setFile fs out prior) files out).2 = (merge_jsonl fs files out).2 := by
  have hagree : ∀ f ∈ files, (setFile fs out prior).fileLines f = fs.fileLines f := by
    intro f hf
    have hne : f ≠ out := by intro hfe; subst hfe; exact hout hf
    exact setFile_read_ne fs out f prior hne
  have hread2 : ∀ f ∈ files, (setFile fs out prior).fileLines f ≠ none := by
    intro f hf; rw [hagree f hf]; exact hread f hf
  have hmc := mergedContent_congr (setFile fs out prior) fs files hagree
  rw [merge_jsonl_eq _ files out hread2 hout, merge_jsonl_eq fs files out hread hout, hmc]
  exact ⟨by simp [setFile], rfl⟩

theorem merge_jsonl_overwrites_prior_witness :
    (∀ f ∈ ["f1", "f2"], sampleFS.fileLines f ≠ none) ∧ ("o3" : Path) ∉ ["f1", "f2"] ∧
    (((merge_jsonl (setFile sampleFS ("o3") [['o', 'l', 'd']]) ["f1", "f2"] ("o3")).1).fileLines
        ("o3") = some (mergedContent sampleFS ["f1", "f2"]) ∧
      (merge_jsonl (setFile sampleFS ("o3") [['o', 'l', 'd']]) ["f1", "f2"] ("o3")).2 =
        (merge_jsonl sampleFS ["f1", "f2"] ("o3")).2) :=
  ⟨by decide, by decide,
   merge_jsonl_overwrites_prior sampleFS ["f1", "f2"] ("o3") [['o', 'l', 'd']]
     (by decide) (by decide)⟩

/-- C10: merging an empty sequence of input files still creates the
output's missing parent directories, leaves the output file truncated to
empty content, and returns a count of zero. -/
theorem merge_jsonl_empty_files (fs : FS) (out : Path) :
    ((merge_jsonl fs [] out).1).fileLines out = some [] ∧
    (merge_jsonl fs [] out).2 = Except.ok 0 ∧
    ∀ d ∈ ancestorDirs out, d ∈ ((merge_jsonl fs [] out).1).dirs := by
  have heq := merge_jsonl_eq fs [] out (by simp) (by simp)
  refine ⟨?_, ?_, ?_⟩
  · rw [heq]; simp [setFile, mergedContent_nil]
  · rw [heq]; simp [mergedContent_nil]
  · intro d hd
    rw [heq]
    exact mem_mkdirParents fs out d hd

theorem merge_jsonl_empty_files_witness :
    ((merge_jsonl sampleFS [] ("a/b")).1).fileLines ("a/b") = some [] ∧
    (merge_jsonl sampleFS [] ("a/b")).2 = Except.ok 0 ∧
    ("a" : Path) ∈ ((merge_jsonl sampleFS [] ("a/b")).1).dirs :=
  ⟨(merge_jsonl_empty_files sampleFS ("a/b")).1,
   (merge_jsonl_empty_files sampleFS ("a/b")).2.1,
   (merge_jsonl_empty_files sampleFS ("a/b")).2.2 ("a") (by decide)⟩

/-- Every selected path resolves differently from every excluded output. -/
lemma collect_files_excludes (glob : List Path) (isf : Path → Bool)
    (res : Path → Path) (outs : List Path) :
    ∀ p ∈ collect_files glob isf res outs, ∀ o ∈ outs, res p ≠ res o := by
  intro p hp o ho heq
  have hpred := (List.mem_filter.mp hp).2
  have hnotin : res p ∉ outs.map res :=
    of_decide_eq_true ((Bool.and_eq_true _ _).mp hpred).2
  exact hnotin (List.mem_map.mpr ⟨o, ho, heq.symm⟩)

/-- C3: no path selected by `collect_files` has a resolved form equal to
the resolved form of an excluded output path; in `main` both split outputs
are excluded from both the train and the test selections, so an output
never merges into itself. -/
theorem collect_files_excludes_outputs (glob : List Path) (isf : Path → Bool)
    (res : Path → Path) (outs : List Path) (w : World) (a : Config) :
    (∀ p ∈ collect_files glob isf res outs, ∀ o ∈ outs, res p ≠ res o) ∧
    (∀ p ∈ trainSelection w a,
      w.resolve p ≠ w.resolve a.output_train ∧ w.resolve p ≠ w.resolve a.output_test) ∧
    (∀ p ∈ testSelection w a,
      w.resolve p ≠ w.resolve a.output_train ∧ w.resolve p ≠ w.resolve a.output_test) := by
  refine ⟨collect_files_excludes glob isf res outs, fun p hp => ⟨?_, ?_⟩, fun p hp => ⟨?_, ?_⟩⟩
  · exact collect_files_excludes _ _ _ _ p hp a.output_train (by simp)
  · exact collect_files_excludes _ _ _ _ p hp a.output_test (by simp)
  · exact collect_files_excludes _ _ _ _ p hp a.output_train (by simp)
  · exact collect_files_excludes _ _ _ _ p hp a.output_test (by simp)

theorem collect_files_excludes_outputs_witness :
    ("a" : Path) ∈ collect_files ["a", "o"] (fun _ => true) (fun p => p) ["o"] ∧
    ("o" : Path) ∈ ["o"] ∧
    (fun p : Path => p) ("a") ≠ (fun p : Path => p) ("o") :=
  ⟨by decide, by decide,
   (collect_files_excludes_outputs ["a", "o"] (fun _ => true) (fun p => p) ["o"]
     emptyGlobWorld sampleConfig).1 ("a") (by decide) ("o") (by decide)⟩

/-- C4: once the input directory is valid, an empty train selection makes
`main` stop with a diagnostic naming the train pattern and directory, and
an empty test selection (with a non-empty train one) stops it naming the
test pattern; in both cases the filesystem is returned untouched — neither
merge runs, so no output file is created, opened, or modified. -/
theorem main_empty_selection_skips_merges (w : World) (a : Config)
    (hex : w.pathExists a.input_dir = true) (hdir : w.isDir a.input_dir = true) :
    (trainSelection w a = [] →
      main_model w a =
        (w.fs, Except.error (MergeError.noTrainFiles a.train_pattern a.input_dir))) ∧
    (trainSelection w a ≠ [] → testSelection w a = [] →
      main_model w a =
        (w.fs, Except.error (MergeError.noTestFiles a.test_pattern a.input_dir))) := by
  constructor
  · intro h
    unfold main_model
    rw [hex, hdir]
    simp [h]
  · intro h1 h2
    unfold main_model
    rw [hex, hdir]
    simp [h1, h2]

theorem main_empty_selection_skips_merges_witness :
    emptyGlobWorld.pathExists sampleConfig.input_dir = true ∧
    trainSelection emptyGlobWorld sampleConfig = [] ∧
    main_model emptyGlobWorld sampleConfig =
      (emptyGlobWorld.fs,
       Except.error
         (MergeError.noTrainFiles sampleConfig.train_pattern sampleConfig.input_dir)) :=
  ⟨by decide, by decide,
   (main_empty_selection_skips_merges emptyGlobWorld sampleConfig
     (by decide) (by decide)).1 (by decide)⟩

/-- C5: if the configured input directory does not exist or is not a
directory, `main` stops with a diagnostic naming that path and the
filesystem is returned untouched — no selection or merge is attempted. -/
theorem main_invalid_dir_fails (w : World) (a : Config)
    (h : w.pathExists a.input_dir = false ∨ w.isDir a.input_dir = false) :
    main_model w a = (w.fs, Except.error (MergeError.inputDirNotFound a.input_dir)) := by
  unfold main_model
  rcases h with h | h <;> rw [h] <;> simp

theorem main_invalid_dir_fails_witness :
    noDirWorld.pathExists sampleConfig.input_dir = false ∧
    main_model noDirWorld sampleConfig =
      (noDirWorld.fs, Except.error (MergeError.inputDirNotFound sampleConfig.input_dir)) :=
  ⟨by decide, main_invalid_dir_fails noDirWorld sampleConfig (Or.inl (by decide))⟩

/-- C6: the list `collect_files` returns is sorted by the code-point
lexicographic order on path strings, and it does not depend on the
enumeration order in which the glob delivered the matches. -/
theorem collect_files_sorted_deterministic (glob1 glob2 : List Path) (isf : Path → Bool)
    (res : Path → Path) (outs : List Path) (hperm : glob1.Perm glob2) :
    List.Sorted pathLe (collect_files glob1 isf res outs) ∧
    collect_files glob1 isf res outs = collect_files glob2 isf res outs := by
  have hs1 : List.Sorted pathLe (List.insertionSort pathLe glob1) :=
    List.sorted_insertionSort pathLe glob1
  have hs2 : List.Sorted pathLe (List.insertionSort pathLe glob2) :=
    List.sorted_insertionSort pathLe glob2
  constructor
  · exact List.Pairwise.filter _ hs1
  · unfold collect_files
    have hp : (List.insertionSort pathLe glob1).Perm (List.insertionSort pathLe glob2) :=
      ((List.perm_insertionSort pathLe glob1).trans hperm).trans
        (List.perm_insertionSort pathLe glob2).symm
    rw [List.eq_of_perm_of_sorted hp hs1 hs2]

theorem collect_files_sorted_deterministic_witness :
    List.Perm ["b", "a"] ["a", "b"] ∧
    (List.Sorted pathLe (collect_files ["b", "a"] (fun _ => true) (fun p => p) []) ∧
      collect_files ["b", "a"] (fun _ => true) (fun p => p) [] =
        collect_files ["a", "b"] (fun _ => true) (fun p => p) []) :=
  ⟨List.Perm.swap ("a") ("b") [],
   collect_files_sorted_deterministic ["b", "a"] ["a", "b"] (fun _ => true) (fun p => p) []
     (List.Perm.swap ("a") ("b") [])⟩

/-- C8: every path `collect_files` returns satisfies the regular-file
test; entries failing it (directories, symlinks to directories, special
files) are omitted from the result. -/
theorem collect_files_only_regular (glob : List Path) (isf : Path → Bool)
    (res : Path → Path) (outs : List Path) :
    ∀ p ∈ collect_files glob isf res outs, isf p = true := by
  intro p hp
  exact ((Bool.and_eq_true _ _).mp (List.mem_filter.mp hp).2).1

theorem collect_files_only_regular_witness :
    ("a" : Path) ∈ collect_files ["a", "d"] (fun p => decide (p ≠ "d")) (fun p => p) [] ∧
    (fun p : Path => decide (p ≠ "d")) ("a") = true :=
  ⟨by decide,
   collect_files_only_regular ["a", "d"] (fun p => decide (p ≠ "d")) (fun p => p) []
     ("a") (by decide)⟩

/-- C9: when no glob match survives the regular-file and exclusion tests
(in particular when there is no match at all), `collect_files` returns the
empty list — being a total function it raises nothing, and the caller
alone decides how to react. -/
theorem collect_files_empty_selection (glob : List Path) (isf : Path → Bool)
    (res : Path → Path) (outs : List Path)
    (h : ∀ p ∈ glob, isf p = false ∨ res p ∈ outs.map res) :
    collect_files glob isf res outs = [] := by
  unfold collect_files
  rw [List.filter_eq_nil_iff]
  intro p hp
  have hpg : p ∈ glob := (List.perm_insertionSort pathLe glob).mem_iff.mp hp
  rcases h p hpg with hf | hr
  · simp [hf]
  · simp [hr]

theorem collect_files_empty_selection_witness :
    (∀ p ∈ ["o"], (fun _ : Path => true) p = false ∨
      (fun q : Path => q) p ∈ ["o"].map (fun q : Path => q)) ∧
    collect_files ["o"] (fun _ => true) (fun q => q) ["o"] = [] :=
  ⟨by decide,
   collect_files_empty_selection ["o"] (fun _ => true) (fun q => q) ["o"] (by decide)⟩

end Merge
